import Mathlib

set_option maxHeartbeats 1000000

/-!
Shallow embedding of the response-normalization pipeline of the
`/api/gemini` handlers (src/server.js lines 116-143, and the variant with
the `allowedKeys` schema stage in src/unnamed/part_000 lines 360-408) and
of the entity-aggregation loop of the Document AI `/process-document`
handler (src/unnamed/part_000 lines 64-78).

JavaScript values produced by `JSON.parse` are modelled by the inductive
type `Js`.  JavaScript numbers are IEEE doubles; no claim inspects
numeric values, so a parsed number is modelled by the lexeme it was
parsed from, and its `String(...)` coercion is modelled as that lexeme
(double formatting is not modelled).  JavaScript objects are modelled as
insertion-ordered association lists with unique keys, exactly what
`JSON.parse` produces (a duplicated key overwrites the value in place);
prototype-chain property inheritance is not modelled.
-/

/-- JSON values as produced by `JSON.parse`. -/
inductive Js where
  | null
  | bool (b : Bool)
  | num (lexeme : String)
  | str (s : String)
  | arr (elems : List Js)
  | obj (fields : List (String × Js))

/-- Lower-case hexadecimal digit, as emitted by `JSON.stringify` in
`\u00xx` escapes. -/
def hexDigitChar (n : Nat) : Char :=
  if n = 0 then '0' else if n = 1 then '1' else if n = 2 then '2'
  else if n = 3 then '3' else if n = 4 then '4' else if n = 5 then '5'
  else if n = 6 then '6' else if n = 7 then '7' else if n = 8 then '8'
  else if n = 9 then '9' else if n = 10 then 'a' else if n = 11 then 'b'
  else if n = 12 then 'c' else if n = 13 then 'd' else if n = 14 then 'e'
  else 'f'

/-- How `JSON.stringify` escapes a single character inside a string
literal: quote and backslash get a backslash escape, the five control
characters with short escapes use them, the remaining control characters
become `\u00xx`, and every other character is emitted literally. -/
def escapeChar (c : Char) : List Char :=
  if c = '"' then ['\\', '"']
  else if c = '\\' then ['\\', '\\']
  else if c = '\x08' then ['\\', 'b']
  else if c = '\x09' then ['\\', 't']
  else if c = '\x0a' then ['\\', 'n']
  else if c = '\x0c' then ['\\', 'f']
  else if c = '\x0d' then ['\\', 'r']
  else if c.toNat < 32 then
    '\\' :: 'u' :: '0' :: '0' :: hexDigitChar (c.toNat / 16) ::
      hexDigitChar (c.toNat % 16) :: []
  else [c]

/-- Escape every character of a string body, `JSON.stringify` style. -/
def escapeList : List Char → List Char
  | [] => []
  | c :: cs => escapeChar c ++ escapeList cs

/-- A JSON string literal: opening quote, escaped body, closing quote. -/
def quoteString (s : String) : List Char :=
  '"' :: (escapeList s.data ++ ['"'])

mutual

/-- `JSON.stringify(value)` (no spacing argument), as the reduce in the
`/api/gemini` handlers applies it to object- or array-valued fields. -/
def serializeJs : Js → List Char
  | .null => "null".data
  | .bool true => "true".data
  | .bool false => "false".data
  | .num lx => lx.data
  | .str s => quoteString s
  | .arr es => '[' :: (serializeElems es ++ [']'])
  | .obj fs => '\x7b' :: (serializeFields fs ++ ['\x7d'])

/-- Comma-separated serialization of array elements. -/
def serializeElems : List Js → List Char
  | [] => []
  | [e] => serializeJs e
  | e :: es => serializeJs e ++ ',' :: serializeElems es

/-- Comma-separated serialization of object members. -/
def serializeFields : List (String × Js) → List Char
  | [] => []
  | [(k, v)] => quoteString k ++ ':' :: serializeJs v
  | (k, v) :: fs => (quoteString k ++ ':' :: serializeJs v) ++ ',' :: serializeFields fs

end

/-- The global regex replace
`rawText.replace(/` ```json\n?|\n?``` `/g, '')` of src/server.js line 116
and src/unnamed/part_000 line 364: scanning left to right, an occurrence
of three backticks followed by `json` and an optional newline, or of an
optional newline followed by three backticks, is deleted; any other
character is kept.  Alternatives are tried in the regex's order at each
position, with the optional newline matched greedily, exactly as the
JavaScript engine does. -/
def stripScan : List Char → List Char
  | '`' :: '`' :: '`' :: 'j' :: 's' :: 'o' :: 'n' :: '\n' :: rest => stripScan rest
  | '`' :: '`' :: '`' :: 'j' :: 's' :: 'o' :: 'n' :: rest => stripScan rest
  | '\n' :: '`' :: '`' :: '`' :: rest => stripScan rest
  | '`' :: '`' :: '`' :: rest => stripScan rest
  | c :: rest => c :: stripScan rest
  | [] => []

/-- Whitespace removed by JavaScript `String.prototype.trim`
(the ASCII whitespace characters plus no-break space, the line
separators, and the byte-order mark; the rarer Unicode space separators
are not modelled, no claim involves them). -/
def isJsTrimWs (c : Char) : Bool :=
  c = ' ' || c = '\t' || c = '\n' || c = '\r' || c = '\x0b' || c = '\x0c' ||
  c = '\xa0' || c = '\u2028' || c = '\u2029' || c = '\uFEFF'

/-- Drop leading trim-whitespace. -/
def trimLeftWs : List Char → List Char
  | [] => []
  | c :: cs => if isJsTrimWs c then trimLeftWs cs else c :: cs

/-- JavaScript `.trim()`: drop leading and trailing whitespace. -/
def jsTrim (s : List Char) : List Char :=
  (trimLeftWs ((trimLeftWs s).reverse)).reverse

/-- The cleaning step applied to the raw model output before parsing:
strip the fence markers globally, then trim. -/
def cleanText (raw : String) : List Char :=
  jsTrim (stripScan raw.data)

/-- Insignificant whitespace accepted between JSON tokens. -/
def isJsonWs (c : Char) : Bool :=
  c = ' ' || c = '\t' || c = '\n' || c = '\r'

/-- Skip insignificant JSON whitespace. -/
def skipWs : List Char → List Char
  | [] => []
  | c :: cs => if isJsonWs c then skipWs cs else c :: cs

/-- Hexadecimal digit test for `\uXXXX` escapes. -/
def isHexDigit (c : Char) : Bool :=
  ('0' ≤ c && c ≤ '9') || ('a' ≤ c && c ≤ 'f') || ('A' ≤ c && c ≤ 'F')

/-- Value of a hexadecimal digit. -/
def hexVal (c : Char) : Nat :=
  if '0' ≤ c && c ≤ '9' then c.toNat - '0'.toNat
  else if 'a' ≤ c && c ≤ 'f' then c.toNat - 'a'.toNat + 10
  else c.toNat - 'A'.toNat + 10

/-- Parse the body of a JSON string literal (the opening quote already
consumed), returning the decoded characters and the input after the
closing quote.  Raw control characters are rejected, escapes are
decoded, everything else is taken literally, as `JSON.parse` does.
(`\uXXXX` escapes denoting lone surrogates are outside Lean's `Char`
and are mapped to the null character; no claim involves them.) -/
def parseStringBody : List Char → Option (List Char × List Char)
  | [] => none
  | '"' :: rest => some ([], rest)
  | '\\' :: rest =>
    (match rest with
     | '"' :: r2 => (parseStringBody r2).map (fun p => ('"' :: p.1, p.2))
     | '\\' :: r2 => (parseStringBody r2).map (fun p => ('\\' :: p.1, p.2))
     | '/' :: r2 => (parseStringBody r2).map (fun p => ('/' :: p.1, p.2))
     | 'b' :: r2 => (parseStringBody r2).map (fun p => ('\x08' :: p.1, p.2))
     | 'f' :: r2 => (parseStringBody r2).map (fun p => ('\x0c' :: p.1, p.2))
     | 'n' :: r2 => (parseStringBody r2).map (fun p => ('\x0a' :: p.1, p.2))
     | 'r' :: r2 => (parseStringBody r2).map (fun p => ('\x0d' :: p.1, p.2))
     | 't' :: r2 => (parseStringBody r2).map (fun p => ('\x09' :: p.1, p.2))
     | 'u' :: h1 :: h2 :: h3 :: h4 :: r2 =>
       if isHexDigit h1 && isHexDigit h2 && isHexDigit h3 && isHexDigit h4 then
         (parseStringBody r2).map (fun p =>
           (Char.ofNat (((hexVal h1 * 16 + hexVal h2) * 16 + hexVal h3) * 16 + hexVal h4)
             :: p.1, p.2))
       else none
     | _ => none)
  | c :: rest =>
    if c.toNat < 32 then none
    else (parseStringBody rest).map (fun p => (c :: p.1, p.2))

/-- Take a maximal run of decimal digits. -/
def takeDigits : List Char → List Char × List Char
  | [] => ([], [])
  | c :: cs =>
    if c.isDigit then
      let p := takeDigits cs
      (c :: p.1, p.2)
    else ([], c :: cs)

/-- JSON integer part: a single `0`, or a nonzero digit followed by
digits. -/
def parseIntPart : List Char → Option (List Char × List Char)
  | [] => none
  | c :: cs =>
    if c = '0' then some (['0'], cs)
    else if c.isDigit then
      let p := takeDigits cs
      some (c :: p.1, p.2)
    else none

/-- Optional JSON fraction part: `.` followed by one or more digits. -/
def parseFracPart : List Char → Option (List Char × List Char)
  | '.' :: cs =>
    match takeDigits cs with
    | ([], _) => none
    | (ds, rest) => some ('.' :: ds, rest)
  | s => some ([], s)

/-- Optional JSON exponent part: `e` or `E`, an optional sign, one or
more digits. -/
def parseExpPart : List Char → Option (List Char × List Char)
  | [] => some ([], [])
  | c :: cs =>
    if c = 'e' ∨ c = 'E' then
      match cs with
      | sgn :: cs2 =>
        if sgn = '+' ∨ sgn = '-' then
          match takeDigits cs2 with
          | ([], _) => none
          | (ds, rest) => some (c :: sgn :: ds, rest)
        else
          match takeDigits cs with
          | ([], _) => none
          | (ds, rest) => some (c :: ds, rest)
      | [] => none
    else some ([], c :: cs)

/-- JSON number after the optional minus sign. -/
def parseNumAfterSign (s : List Char) : Option (List Char × List Char) :=
  match parseIntPart s with
  | none => none
  | some (ip, r1) =>
    match parseFracPart r1 with
    | none => none
    | some (fp, r2) =>
      match parseExpPart r2 with
      | none => none
      | some (ep, r3) => some (ip ++ fp ++ ep, r3)

/-- A complete JSON number lexeme. -/
def parseNumberChars : List Char → Option (List Char × List Char)
  | '-' :: rest => (parseNumAfterSign rest).map (fun p => ('-' :: p.1, p.2))
  | s => parseNumAfterSign s

/-- In-place update of an association list: a present key keeps its
position and gets the new value, an absent key is appended.  This is
how assignment to a JavaScript object property behaves, and how
`JSON.parse` resolves duplicated keys. -/
def updateField (k : String) (v : Js) : List (String × Js) → List (String × Js)
  | [] => [(k, v)]
  | (k2, v2) :: fs => if k2 = k then (k2, v) :: fs else (k2, v2) :: updateField k v fs

/-- Resolve duplicated keys the way `JSON.parse` does: later occurrences
overwrite the value but keep the first occurrence's position. -/
def dedupFields (fs : List (String × Js)) : List (String × Js) :=
  fs.foldl (fun acc kv => updateField kv.1 kv.2 acc) []

/-- One or more comma-separated array items followed by `]`.  `pv`
parses one value; the fuel bounds the number of items and is in
practice the length of the remaining input. -/
def parseItemsF (pv : List Char → Option (Js × List Char)) :
    Nat → List Char → Option (List Js × List Char)
  | 0, _ => none
  | g + 1, s =>
    match pv s with
    | none => none
    | some (v, r) =>
      match skipWs r with
      | ',' :: r2 => (parseItemsF pv g r2).map (fun p => (v :: p.1, p.2))
      | ']' :: r2 => some ([v], r2)
      | _ => none

/-- One or more comma-separated object members followed by the closing
brace. -/
def parseFieldsF (pv : List Char → Option (Js × List Char)) :
    Nat → List Char → Option (List (String × Js) × List Char)
  | 0, _ => none
  | g + 1, s =>
    match skipWs s with
    | '"' :: r1 =>
      match parseStringBody r1 with
      | none => none
      | some (kcs, r2) =>
        match skipWs r2 with
        | ':' :: r3 =>
          match pv r3 with
          | none => none
          | some (v, r4) =>
            match skipWs r4 with
            | ',' :: r5 => (parseFieldsF pv g r5).map (fun p => ((String.mk kcs, v) :: p.1, p.2))
            | '\x7d' :: r5 => some ([(String.mk kcs, v)], r5)
            | _ => none
        | _ => none
    | _ => none

/-- Parse one JSON value, skipping leading whitespace.  The fuel bounds
the nesting depth; the top-level entry point supplies input length plus
one, which always suffices because each nesting level consumes at least
one character. -/
def parseValue : Nat → List Char → Option (Js × List Char)
  | 0, _ => none
  | fuel + 1, s =>
    match skipWs s with
    | [] => none
    | c :: rest =>
      if c = 'n' then
        match rest with
        | 'u' :: 'l' :: 'l' :: r => some (Js.null, r)
        | _ => none
      else if c = 't' then
        match rest with
        | 'r' :: 'u' :: 'e' :: r => some (Js.bool true, r)
        | _ => none
      else if c = 'f' then
        match rest with
        | 'a' :: 'l' :: 's' :: 'e' :: r => some (Js.bool false, r)
        | _ => none
      else if c = '"' then
        (parseStringBody rest).map (fun p => (Js.str (String.mk p.1), p.2))
      else if c = '[' then
        match skipWs rest with
        | ']' :: r2 => some (Js.arr [], r2)
        | r2 => (parseItemsF (parseValue fuel) (r2.length + 1) r2).map
            (fun p => (Js.arr p.1, p.2))
      else if c = '\x7b' then
        match skipWs rest with
        | '\x7d' :: r2 => some (Js.obj [], r2)
        | r2 => (parseFieldsF (parseValue fuel) (r2.length + 1) r2).map
            (fun p => (Js.obj (dedupFields p.1), p.2))
      else if c = '-' ∨ c.isDigit then
        (parseNumberChars (c :: rest)).map (fun p => (Js.num (String.mk p.1), p.2))
      else none

/-- `JSON.parse`: parse one value and require only whitespace after it. -/
def jsonParseChars (s : List Char) : Option Js :=
  match parseValue (s.length + 1) s with
  | some (v, rest) => if skipWs rest = [] then some v else none
  | none => none

/-- The body of the coercing reduce of src/server.js lines 127-132 and
src/unnamed/part_000 lines 375-380: an object or array value is
replaced by its `JSON.stringify` serialization; any other value is
coerced with `String(...)` (`String(null)` is the text `null`,
booleans become their textual form, a number prints as its lexeme under
this embedding's abstraction, a string is unchanged). -/
def coerceValue : Js → String
  | .obj fs => String.mk (serializeJs (.obj fs))
  | .arr es => String.mk (serializeJs (.arr es))
  | .null => "null"
  | .bool true => "true"
  | .bool false => "false"
  | .num lx => lx
  | .str s => s

/-- The whole coercing reduce: every field keeps its key and gets its
coerced string value. -/
def coerceFields (fs : List (String × Js)) : List (String × String) :=
  fs.map (fun kv => (kv.1, coerceValue kv.2))

/-- Property lookup on a parsed object (own properties only). -/
def lookupJs (k : String) : List (String × Js) → Option Js
  | [] => none
  | (k2, v) :: rest => if k2 = k then some v else lookupJs k rest

/-- Property lookup on the coerced string object. -/
def lookupStr (k : String) : List (String × String) → Option String
  | [] => none
  | (k2, v) :: rest => if k2 = k then some v else lookupStr k rest

/-- Lookup in the normalized result. -/
def lookupRes (k : String) : List (String × Option String) → Option (Option String)
  | [] => none
  | (k2, v) :: rest => if k2 = k then some v else lookupRes k rest

/-- The response normalizer `normalize(rawText, schema)`: strip fence
markers and trim (src/unnamed/part_000 line 364), `JSON.parse` the
cleaned text and require a flat object (lines 369-373), coerce every
value to a string (lines 375-380), then build the final response by
walking the schema: a field present in the parsed object gets its
coerced string (`String` applied to an already-string value is the
identity), an absent field gets `null` (lines 390-405).  The result is
`none` exactly when the code takes the `MalformedOutput` catch branch. -/
def normalizeResponse (schema : List String) (rawText : String) :
    Option (List (String × Option String)) :=
  match jsonParseChars (cleanText rawText) with
  | some (Js.obj fs) =>
    let coerced := coerceFields fs
    some (schema.map (fun k => (k, lookupStr k coerced)))
  | _ => none

/-- Outcome of the normalization step of the `/api/gemini` handler:
either the 200 body carrying the result under `jsonResponse`, or the
500 error body with its development-gated diagnostic fields. -/
inductive GeminiResponse where
  | ok (jsonResponse : List (String × Option String))
  | malformedErr (details : Option String) (rawResponse : Option String)

/-- Modelled from the spec: the parse error message attached to a
`MalformedOutput` failure.  The message text is produced by the host
JSON parser and is engine-specific; it is modelled as a function of the
cleaned text, which is what the engine receives. -/
def parseErrorMessage (cleaned : String) : String :=
  "Unexpected token in " ++ cleaned

/-- The normalization step of the `/api/gemini` handler of
src/unnamed/part_000 lines 360-408: on success, status 200 with the
result under `jsonResponse`; on failure, status 500 with the fixed
error text and, only in development mode, the parse error message and
the (cleaned) raw response. -/
def geminiHandlerStep (devMode : Bool) (schema : List String) (rawText : String) :
    Nat × GeminiResponse :=
  match normalizeResponse schema rawText with
  | some r => (200, GeminiResponse.ok r)
  | none =>
    (500, GeminiResponse.malformedErr
      (if devMode then some (parseErrorMessage (String.mk (cleanText rawText))) else none)
      (if devMode then some (String.mk (cleanText rawText)) else none))

/-- Value stored for an entity type by the `/process-document`
aggregation loop: a single mention text, or an array of mention texts. -/
inductive EntVal where
  | str (s : String)
  | arr (ss : List String)
deriving DecidableEq

/-- Lookup in the entities object. -/
def lookupEnt (k : String) : List (String × EntVal) → Option EntVal
  | [] => none
  | (k2, v) :: rest => if k2 = k then some v else lookupEnt k rest

/-- Assignment to the entities object: present keys keep their position,
absent keys are appended. -/
def updateEnt (k : String) (v : EntVal) : List (String × EntVal) → List (String × EntVal)
  | [] => [(k, v)]
  | (k2, v2) :: rest => if k2 = k then (k2, v) :: rest else (k2, v2) :: updateEnt k v rest

/-- JavaScript truthiness of a stored entity value: the empty string is
falsy, every other string is truthy, an array is always truthy. -/
def truthyEnt : EntVal → Bool
  | .str s => decide (s ≠ "")
  | .arr _ => true

/-- Appending a mention to a stored value: a string is first wrapped in
a one-element array, then the new mention is pushed. -/
def entPush (v : EntVal) (m : String) : EntVal :=
  match v with
  | .str s => .arr [s, m]
  | .arr l => .arr (l ++ [m])

/-- One iteration of the aggregation loop of src/unnamed/part_000 lines
67-77: if the stored value for the entity's type is truthy it is turned
into / extended as an array, otherwise (absent, or the falsy empty
string) the mention is assigned directly. -/
def entStep (m : List (String × EntVal)) (e : String × String) : List (String × EntVal) :=
  match lookupEnt e.1 m with
  | some v =>
    if truthyEnt v then updateEnt e.1 (entPush v e.2) m
    else updateEnt e.1 (EntVal.str e.2) m
  | none => updateEnt e.1 (EntVal.str e.2) m

/-- The whole aggregation loop over the document's entities, in document
order; an entity is the pair of its `type` and its `mentionText` (a
missing mention text is the empty string, from `entity.mentionText ||
''`). -/
def aggregateEntities (es : List (String × String)) : List (String × EntVal) :=
  es.foldl entStep []

/-- The mention texts of a given type, in document order. -/
def mentionsOf (ty : String) (es : List (String × String)) : List String :=
  (es.filter (fun e => e.1 = ty)).map Prod.snd

/-- The effect of the aggregation loop on a single type's stored value,
replayed over that type's successive mentions. -/
def entRun : Option EntVal → List String → Option EntVal
  | v, [] => v
  | none, m :: ms => entRun (some (EntVal.str m)) ms
  | some v, m :: ms =>
    entRun (some (if truthyEnt v then entPush v m else EntVal.str m)) ms

/-- Presence of three consecutive backticks (the trigger of both regex
alternatives) anywhere in a text. -/
def hasFence : List Char → Bool
  | '`' :: '`' :: '`' :: _ => true
  | _ :: rest => hasFence rest
  | [] => false

/-- `JSON.stringify` of a flat JavaScript object whose values are
strings — the `stringify(O)` of the claim. -/
def serializeFlat (O : List (String × String)) : String :=
  String.mk (serializeJs (Js.obj (O.map fun kv => (kv.1, Js.str kv.2))))

/-! Helper lemmas shared by several claim proofs. -/

/-- Looking a key up in the coerced object is looking it up in the
parsed object and coercing. -/
theorem lookupStr_coerceFields (k : String) (fs : List (String × Js)) :
    lookupStr k (coerceFields fs) = (lookupJs k fs).map coerceValue := by
  induction fs with
  | nil => rfl
  | cons kv rest ih =>
    obtain ⟨k2, v⟩ := kv
    by_cases h : k2 = k <;> simp [coerceFields, lookupStr, lookupJs, h] at ih ⊢
    exact ih

/-- The normalizer on a text whose cleaned form parses to an object. -/
theorem normalizeResponse_eq_of_parse (S : List String) (t : String)
    (fs : List (String × Js)) (h : jsonParseChars (cleanText t) = some (Js.obj fs)) :
    normalizeResponse S t = some (S.map fun k => (k, (lookupJs k fs).map coerceValue)) := by
  unfold normalizeResponse
  rw [h]
  simp [lookupStr_coerceFields]

/-- Looking up a schema field in the schema-shaped result. -/
theorem lookupRes_map_schema (S : List String) (f : String → Option String) (k : String)
    (hk : k ∈ S) :
    lookupRes k (S.map fun x => (x, f x)) = some (f k) := by
  induction S with
  | nil => cases hk
  | cons a S ih =>
    rcases List.mem_cons.mp hk with h | h
    · subst h; simp [lookupRes]
    · by_cases ha : a = k
      · subst ha; simp [lookupRes]
      · simp [lookupRes, ha, ih h]

/-- Claim C1: whenever the normalizer succeeds, the key list of the
result is exactly the schema's field list — every schema field appears
and nothing else does, regardless of which extra or missing keys the
parsed upstream object contained. -/
theorem claim1_keys_eq_schema (S : List String) (t : String)
    (r : List (String × Option String)) (h : normalizeResponse S t = some r) :
    r.map Prod.fst = S := by
  unfold normalizeResponse at h
  rcases hp : jsonParseChars (cleanText t) with _ | v <;> rw [hp] at h
  · exact Option.noConfusion h
  · cases v
    case obj fs =>
      have hr : (S.map fun k => (k, lookupStr k (coerceFields fs))) = r := by
        simpa using h
      rw [← hr]
      simp [List.map_map, Function.comp_def]
    all_goals exact Option.noConfusion h

/-- Witness for C1 at a concrete input. -/
theorem claim1_witness :
    normalizeResponse ["a"] "\x7b\"a\":\"b\",\"extra\":\"c\"\x7d" =
      some [("a", some "b")] ∧
    ([("a", some "b")] : List (String × Option String)).map Prod.fst = ["a"] :=
  ⟨by decide, claim1_keys_eq_schema ["a"] "\x7b\"a\":\"b\",\"extra\":\"c\"\x7d" _ (by decide)⟩

/-- Claim C4: the normalizer fails exactly when the cleaned text is not
parseable as JSON or parses to null, a boolean, a number, a string, or
an array; in particular it never fails on a text whose cleaned form
parses to a JSON object. -/
theorem claim4_failure_classification (S : List String) (t : String) :
    normalizeResponse S t = none ↔
      (jsonParseChars (cleanText t) = none ∨
       jsonParseChars (cleanText t) = some Js.null ∨
       (∃ b, jsonParseChars (cleanText t) = some (Js.bool b)) ∨
       (∃ lx, jsonParseChars (cleanText t) = some (Js.num lx)) ∨
       (∃ s, jsonParseChars (cleanText t) = some (Js.str s)) ∨
       (∃ es, jsonParseChars (cleanText t) = some (Js.arr es))) := by
  unfold normalizeResponse
  rcases hp : jsonParseChars (cleanText t) with _ | v
  · simp
  · cases v <;> simp

/-- Claim C5: on a text whose cleaned form parses to an object, the
normalizer's result pairs each schema field with the coercion of the
parsed value when present (`coerceValue` serializes object and array
values with `JSON.stringify` and stringifies every scalar) and with
null when absent; the embedding's result type makes every output value
a string or null. -/
theorem claim5_value_coercion (S : List String) (t : String) (fs : List (String × Js))
    (h : jsonParseChars (cleanText t) = some (Js.obj fs)) :
    normalizeResponse S t = some (S.map fun k => (k, (lookupJs k fs).map coerceValue)) :=
  normalizeResponse_eq_of_parse S t fs h

/-- Witness for C5: the spec's own example — a nested array value is
serialized to its JSON string form, a missing schema field becomes
null. -/
theorem claim5_witness :
    normalizeResponse ["Name", "Skills", "Age"]
        "\x7b\"Name\":\"Ali\",\"Skills\":[\"Cooking\",\"Cleaning\"]\x7d" =
      some [("Name", some "Ali"), ("Skills", some "[\"Cooking\",\"Cleaning\"]"),
            ("Age", none)] :=
  (claim5_value_coercion ["Name", "Skills", "Age"]
      "\x7b\"Name\":\"Ali\",\"Skills\":[\"Cooking\",\"Cleaning\"]\x7d"
      [("Name", Js.str "Ali"), ("Skills", Js.arr [Js.str "Cooking", Js.str "Cleaning"])]
      rfl).trans (by decide)

/-- Claim C6: the normalization step has exactly two outcomes — success
gives status 200 with the result under `jsonResponse`, failure gives
status 500 with the malformed-output error body. -/
theorem claim6_two_outcomes (dev : Bool) (S : List String) (t : String) :
    (∃ r, normalizeResponse S t = some r ∧
       geminiHandlerStep dev S t = (200, GeminiResponse.ok r)) ∨
    (normalizeResponse S t = none ∧ ∃ d rr,
       geminiHandlerStep dev S t = (500, GeminiResponse.malformedErr d rr)) := by
  rcases h : normalizeResponse S t with _ | r
  · right
    exact ⟨rfl, (if dev then some (parseErrorMessage (String.mk (cleanText t))) else none),
           (if dev then some (String.mk (cleanText t)) else none),
           by unfold geminiHandlerStep; rw [h]⟩
  · left
    exact ⟨r, rfl, by unfold geminiHandlerStep; rw [h]⟩

/-- Claim C7: a parsed field holding JSON null is coerced to the text
`null` in the result (`String(null)`), and a result field that is
actually null can only come from a schema field absent from the parsed
object. -/
theorem claim7_null_coercion (S : List String) (t : String) (fs : List (String × Js))
    (r : List (String × Option String)) (k : String)
    (hp : jsonParseChars (cleanText t) = some (Js.obj fs))
    (hn : normalizeResponse S t = some r) (hk : k ∈ S) :
    (lookupJs k fs = some Js.null → lookupRes k r = some (some "null")) ∧
    (lookupRes k r = some none → lookupJs k fs = none) := by
  have heq := normalizeResponse_eq_of_parse S t fs hp
  rw [hn] at heq
  have hr : r = S.map fun k => (k, (lookupJs k fs).map coerceValue) :=
    Option.some.inj heq
  subst hr
  rw [lookupRes_map_schema S _ k hk]
  constructor
  · intro hnull
    rw [hnull]
    rfl
  · intro hres
    have : (lookupJs k fs).map coerceValue = none := by
      simpa using hres
    exact Option.map_eq_none'.mp this

/-- Witness for C7 at a concrete input: the parsed object maps `a` to
JSON null, the result maps `a` to the text `null` and the absent schema
field `b` to null. -/
theorem claim7_witness :
    lookupRes "a" [("a", some "null"), ("b", none)] = some (some "null") ∧
    lookupJs "b" [("a", Js.null)] = none :=
  ⟨(claim7_null_coercion ["a", "b"] "\x7b\"a\":null\x7d" [("a", Js.null)]
      [("a", some "null"), ("b", none)] "a" rfl (by decide) (by decide)).1 rfl,
   (claim7_null_coercion ["a", "b"] "\x7b\"a\":null\x7d" [("a", Js.null)]
      [("a", some "null"), ("b", none)] "b" rfl (by decide) (by decide)).2 (by decide)⟩

/-- Claim C8: in production mode (diagnostics disabled) a
malformed-output failure carries no parse error message and no raw
response, so the error bodies of any two failing requests are
identical — the response reveals nothing about the raw text. -/
theorem claim8_prod_no_leak (S : List String) (t1 t2 : String)
    (h1 : normalizeResponse S t1 = none) (h2 : normalizeResponse S t2 = none) :
    geminiHandlerStep false S t1 = (500, GeminiResponse.malformedErr none none) ∧
    geminiHandlerStep false S t1 = geminiHandlerStep false S t2 := by
  unfold geminiHandlerStep
  rw [h1, h2]
  simp

/-- Witness for C8 on two different unparseable texts. -/
theorem claim8_witness :
    geminiHandlerStep false ["Name"] "Name: Ali" =
      (500, GeminiResponse.malformedErr none none) ∧
    geminiHandlerStep false ["Name"] "Name: Ali" =
      geminiHandlerStep false ["Name"] "totally different text" :=
  claim8_prod_no_leak ["Name"] "Name: Ali" "totally different text"
    (by decide) (by decide)

/-- Claim C9: the normalizer is deterministic — its result depends only
on its two inputs (in this embedding it is a pure function, so two
invocations with equal inputs are equal). -/
theorem claim9_deterministic (S1 S2 : List String) (t1 t2 : String)
    (hS : S1 = S2) (ht : t1 = t2) :
    normalizeResponse S1 t1 = normalizeResponse S2 t2 := by
  rw [hS, ht]

/-- Witness for C9 at a concrete input. -/
theorem claim9_witness :
    (["a"] : List String) = ["a"] ∧ ("x" : String) = "x" ∧
    normalizeResponse ["a"] "x" = normalizeResponse ["a"] "x" :=
  ⟨rfl, rfl, claim9_deterministic ["a"] ["a"] "x" "x" rfl rfl⟩

/-- Updating one key changes only that key's lookup. -/
theorem lookupEnt_updateEnt (ty k : String) (v : EntVal) (m : List (String × EntVal)) :
    lookupEnt ty (updateEnt k v m) = if k = ty then some v else lookupEnt ty m := by
  induction m with
  | nil => simp [updateEnt, lookupEnt]
  | cons kv rest ih =>
    obtain ⟨k2, v2⟩ := kv
    by_cases h2 : k2 = k
    · subst h2
      by_cases hty : k2 = ty <;> simp [updateEnt, lookupEnt, hty]
    · by_cases hty : k2 = ty
      · subst hty
        have : ¬ k = k2 := fun h => h2 h.symm
        simp [updateEnt, lookupEnt, h2, this]
      · simp [updateEnt, lookupEnt, h2, hty, ih]

/-- Mentions of a type, unfolded over the first entity. -/
theorem mentionsOf_cons (ty : String) (e : String × String) (es : List (String × String)) :
    mentionsOf ty (e :: es) =
      if e.1 = ty then e.2 :: mentionsOf ty es else mentionsOf ty es := by
  by_cases h : e.1 = ty <;> simp [mentionsOf, List.filter_cons, h]

/-- Invariant of the aggregation fold: for each type, the stored value
is the replay of that type's mentions over the accumulator's entry. -/
theorem lookupEnt_foldl (es : List (String × String)) (acc : List (String × EntVal))
    (ty : String) :
    lookupEnt ty (es.foldl entStep acc) = entRun (lookupEnt ty acc) (mentionsOf ty es) := by
  induction es generalizing acc with
  | nil => simp [mentionsOf, entRun]
  | cons e es ih =>
    rw [List.foldl_cons, ih, mentionsOf_cons]
    by_cases he : e.1 = ty
    · subst he
      rcases hacc : lookupEnt e.1 acc with _ | v
      · simp [entStep, hacc, lookupEnt_updateEnt, entRun]
      · by_cases htr : truthyEnt v = true <;>
          simp [entStep, hacc, htr, lookupEnt_updateEnt, entRun]
    · have hne : ¬ e.1 = ty := he
      have : lookupEnt ty (entStep acc e) = lookupEnt ty acc := by
        unfold entStep
        rcases hacc : lookupEnt e.1 acc with _ | v
        · simp [lookupEnt_updateEnt, hne]
        · by_cases htr : truthyEnt v = true <;> simp [htr, lookupEnt_updateEnt, hne]
      simp [this, hne]

/-- Replaying onto an array appends every further mention. -/
theorem entRun_arr (l : List String) (ms : List String) :
    entRun (some (EntVal.arr l)) ms = some (EntVal.arr (l ++ ms)) := by
  induction ms generalizing l with
  | nil => simp [entRun]
  | cons m ms ih =>
    have : truthyEnt (EntVal.arr l) = true := rfl
    simp [entRun, this, entPush, ih]

/-- Counterexample to C10 as stated: the type `a` occurs twice, with
mention texts the empty string and `x`, yet the stored value is the
plain string `x`, not the array of the two mentions — the truthiness
test treats the stored empty string as absent and overwrites it. -/
theorem claim10_counterexample :
    lookupEnt "a" (aggregateEntities [("a", ""), ("a", "x")]) = some (EntVal.str "x") ∧
    lookupEnt "a" (aggregateEntities [("a", ""), ("a", "x")]) ≠
      some (EntVal.arr ["", "x"]) := by
  decide

/-- Claim C10 as amended: a type occurring exactly once maps to its
mention text as a string; a type occurring more than once whose first
mention text is non-empty maps to the array of all its mention texts in
document order (a falsy empty first mention is instead overwritten by
the next one). -/
theorem claim10_entity_aggregation (es : List (String × String)) (ty m : String)
    (ms : List String) (h : mentionsOf ty es = m :: ms) :
    (ms = [] → lookupEnt ty (aggregateEntities es) = some (EntVal.str m)) ∧
    (ms ≠ [] → m ≠ "" → lookupEnt ty (aggregateEntities es) =
      some (EntVal.arr (m :: ms))) := by
  have hbase : lookupEnt ty (aggregateEntities es) = entRun none (m :: ms) := by
    unfold aggregateEntities
    rw [lookupEnt_foldl, h]
    rfl
  constructor
  · intro hms
    subst hms
    rw [hbase]
    rfl
  · intro hms hm
    rcases ms with _ | ⟨m2, ms'⟩
    · exact absurd rfl hms
    · rw [hbase]
      have htr : truthyEnt (EntVal.str m) = true := by
        simp [truthyEnt, hm]
      show entRun (some (EntVal.str m)) (m2 :: ms') = _
      simp only [entRun, htr, if_pos, entPush]
      rw [entRun_arr]
      rfl

/-- Witness for the amended C10: a type with two non-empty mentions maps
to the array of both, in document order. -/
theorem claim10_witness :
    mentionsOf "a" [("a", "x"), ("b", "y"), ("a", "z")] = ["x", "z"] ∧
    lookupEnt "a" (aggregateEntities [("a", "x"), ("b", "y"), ("a", "z")]) =
      some (EntVal.arr ["x", "z"]) :=
  ⟨by decide,
   (claim10_entity_aggregation [("a", "x"), ("b", "y"), ("a", "z")] "a" "x" ["z"]
      (by decide)).2 (by decide) (by decide)⟩

/-! Fence-wrapping lemmas for claim C3.  The scan deletes a leading
fence marker written exactly as three backticks, `json`, and a newline,
and appending a newline-plus-three-backticks suffix never changes the
scan's output: the suffix is consumed by the second regex alternative
and, because its first character is a newline, it cannot complete a
partial match begun inside the original text (the only pattern
character that could follow a partial match is the optional newline of
the first alternative, and that case is itself deleted). -/

/-- Appending cannot create a two-backtick prefix the original text did
not have. -/
theorem append_nlFence_two_backticks (xs : List Char)
    (h : ∀ r, xs = '`' :: '`' :: r → False) :
    ∀ r, xs ++ ['\n', '`', '`', '`'] = '`' :: '`' :: r → False := by
  intro r heq
  rcases xs with _ | ⟨a, _ | ⟨b, xs'⟩⟩
  · simp at heq
  · simp at heq
  · simp at heq
    exact h xs' (by simp [heq.1, heq.2.1])

/-- Appending cannot create a three-backtick prefix the original text
did not have. -/
theorem append_nlFence_three_backticks (xs : List Char)
    (h : ∀ r, xs = '`' :: '`' :: '`' :: r → False) :
    ∀ r, xs ++ ['\n', '`', '`', '`'] = '`' :: '`' :: '`' :: r → False := by
  intro r heq
  rcases xs with _ | ⟨a, _ | ⟨b, _ | ⟨c, xs'⟩⟩⟩
  · simp at heq
  · simp at heq
  · simp at heq
  · simp at heq
    exact h xs' (by simp [heq.1, heq.2.1, heq.2.2.1])

/-- Appending cannot create a `json` prefix the original text did not
have. -/
theorem append_nlFence_json (xs : List Char)
    (h : ∀ r, xs = 'j' :: 's' :: 'o' :: 'n' :: r → False) :
    ∀ r, xs ++ ['\n', '`', '`', '`'] = 'j' :: 's' :: 'o' :: 'n' :: r → False := by
  intro r heq
  rcases xs with _ | ⟨a, _ | ⟨b, _ | ⟨c, _ | ⟨d, xs'⟩⟩⟩⟩
  · simp at heq
  · simp at heq
  · simp at heq
  · simp at heq
  · simp at heq
    exact h xs' (by simp [heq.1, heq.2.1, heq.2.2.1, heq.2.2.2.1])

/-- The scan of a text with the closing fence appended equals the scan
of the text alone. -/
theorem stripScan_append_nlFence (xs : List Char) :
    stripScan (xs ++ ['\n', '`', '`', '`']) = stripScan xs := by
  induction xs using stripScan.induct with
  | case1 rest ih =>
    simpa [stripScan] using ih
  | case2 rest hx ih =>
    rcases rest with _ | ⟨c, rest'⟩
    · rfl
    · have hc : ∀ t', (c :: (rest' ++ ['\n', '`', '`', '`'])) = '\n' :: t' → False := by
        intro t' heq
        exact hx rest' (by simp [List.cons.injEq] at heq; simp [heq.1])
      rw [List.cons_append, List.cons_append, List.cons_append, List.cons_append,
          List.cons_append, List.cons_append, List.cons_append, List.cons_append]
      rw [stripScan.eq_2 _ hc, stripScan.eq_2 _ hx]
      exact ih
  | case3 rest ih =>
    simpa [stripScan] using ih
  | case4 rest hx1 hx2 ih =>
    have h2 := append_nlFence_json rest hx2
    have h1 : ∀ r, rest ++ ['\n', '`', '`', '`'] =
        'j' :: 's' :: 'o' :: 'n' :: '\n' :: r → False := by
      intro r heq
      exact h2 ('\n' :: r) heq
    simp only [List.cons_append]
    rw [stripScan.eq_4 _ h1 h2, stripScan.eq_4 _ hx1 hx2]
    exact ih
  | case5 c rest hx1 hx2 hx3 hx4 ih =>
    by_cases hbt : c = '`'
    · subst hbt
      have e2 : ∀ r, rest = '`' :: '`' :: r → False := fun r hr => hx4 r rfl hr
      have e2' := append_nlFence_two_backticks rest e2
      have c1 : ∀ r, ('`' : Char) = '`' → rest ++ ['\n', '`', '`', '`'] =
          '`' :: '`' :: 'j' :: 's' :: 'o' :: 'n' :: '\n' :: r → False := by
        intro r _ hr
        exact e2' ('j' :: 's' :: 'o' :: 'n' :: '\n' :: r) hr
      have c2 : ∀ r, ('`' : Char) = '`' → rest ++ ['\n', '`', '`', '`'] =
          '`' :: '`' :: 'j' :: 's' :: 'o' :: 'n' :: r → False := by
        intro r _ hr
        exact e2' ('j' :: 's' :: 'o' :: 'n' :: r) hr
      have c3 : ∀ r, ('`' : Char) = '\n' → rest ++ ['\n', '`', '`', '`'] =
          '`' :: '`' :: '`' :: r → False := by
        intro r hcc _
        exact absurd hcc (by decide)
      have c4 : ∀ r, ('`' : Char) = '`' → rest ++ ['\n', '`', '`', '`'] =
          '`' :: '`' :: r → False := by
        intro r _ hr
        exact e2' r hr
      rw [List.cons_append, stripScan.eq_5 _ _ c1 c2 c3 c4,
          stripScan.eq_5 _ _ hx1 hx2 hx3 hx4, ih]
    · by_cases hnl : c = '\n'
      · subst hnl
        have e3 : ∀ r, rest = '`' :: '`' :: '`' :: r → False := fun r hr => hx3 r rfl hr
        have e3' := append_nlFence_three_backticks rest e3
        have c1 : ∀ r, ('\n' : Char) = '`' → rest ++ ['\n', '`', '`', '`'] =
            '`' :: '`' :: 'j' :: 's' :: 'o' :: 'n' :: '\n' :: r → False := by
          intro r hcc _
          exact absurd hcc (by decide)
        have c2 : ∀ r, ('\n' : Char) = '`' → rest ++ ['\n', '`', '`', '`'] =
            '`' :: '`' :: 'j' :: 's' :: 'o' :: 'n' :: r → False := by
          intro r hcc _
          exact absurd hcc (by decide)
        have c3 : ∀ r, ('\n' : Char) = '\n' → rest ++ ['\n', '`', '`', '`'] =
            '`' :: '`' :: '`' :: r → False := by
          intro r _ hr
          exact e3' r hr
        have c4 : ∀ r, ('\n' : Char) = '`' → rest ++ ['\n', '`', '`', '`'] =
            '`' :: '`' :: r → False := by
          intro r hcc _
          exact absurd hcc (by decide)
        rw [List.cons_append, stripScan.eq_5 _ _ c1 c2 c3 c4,
            stripScan.eq_5 _ _ hx1 hx2 hx3 hx4, ih]
      · have c1 : ∀ r, c = '`' → rest ++ ['\n', '`', '`', '`'] =
            '`' :: '`' :: 'j' :: 's' :: 'o' :: 'n' :: '\n' :: r → False := by
          intro r hcc _
          exact absurd hcc hbt
        have c2 : ∀ r, c = '`' → rest ++ ['\n', '`', '`', '`'] =
            '`' :: '`' :: 'j' :: 's' :: 'o' :: 'n' :: r → False := by
          intro r hcc _
          exact absurd hcc hbt
        have c3 : ∀ r, c = '\n' → rest ++ ['\n', '`', '`', '`'] =
            '`' :: '`' :: '`' :: r → False := by
          intro r hcc _
          exact absurd hcc hnl
        have c4 : ∀ r, c = '`' → rest ++ ['\n', '`', '`', '`'] =
            '`' :: '`' :: r → False := by
          intro r hcc _
          exact absurd hcc hbt
        rw [List.cons_append, stripScan.eq_5 _ _ c1 c2 c3 c4,
            stripScan.eq_5 _ _ hx1 hx2 hx3 hx4, ih]
  | case6 => rfl

/-- Counterexample to C3 as stated: the fence-stripping regex only
removes the language tag `json`; wrapping a successfully normalizing
text in a fence tagged `js` leaves the tag in place and the wrapped
text fails to normalize, so the results differ. -/
theorem claim3_counterexample :
    normalizeResponse ["Name"] "\x7b\"Name\":\"Ali\"\x7d" =
      some [("Name", some "Ali")] ∧
    normalizeResponse ["Name"] ("```js\n" ++ "\x7b\"Name\":\"Ali\"\x7d" ++ "\n```") =
      none := by
  decide

/-- Claim C3 as amended: wrapping any text in a code fence whose
opening marker is three backticks, the language tag `json`, and a
newline, and whose closing marker is a newline and three backticks,
never changes the normalizer's result (for any schema and any text,
successful or not).  Fences with other language tags are not stripped. -/
theorem claim3_json_fence_invariant (S : List String) (t : String) :
    normalizeResponse S ("```json\n" ++ t ++ "\n```") = normalizeResponse S t := by
  have hclean : cleanText ("```json\n" ++ t ++ "\n```") = cleanText t := by
    unfold cleanText
    have hdata : ("```json\n" ++ t ++ "\n```").data =
        '`' :: '`' :: '`' :: 'j' :: 's' :: 'o' :: 'n' :: '\n' ::
          (t.data ++ ['\n', '`', '`', '`']) := by
      simp [String.data_append]
    rw [hdata]
    rw [show stripScan ('`' :: '`' :: '`' :: 'j' :: 's' :: 'o' :: 'n' :: '\n' ::
          (t.data ++ ['\n', '`', '`', '`'])) =
        stripScan (t.data ++ ['\n', '`', '`', '`']) from rfl]
    rw [stripScan_append_nlFence]
  unfold normalizeResponse
  rw [hclean]

/-! Development for claim C2: fence-marker-freedom of serialized flat
objects, and the strip scan's identity on fence-free text. -/


theorem hasFence_split (c : Char) (rest : List Char) (h : hasFence (c :: rest) = false) :
    hasFence rest = false ∧ (∀ r, c = '`' → rest = '`' :: '`' :: r → False) := by
  have hc : ∀ r, c = '`' → rest = '`' :: '`' :: r → False := by
    intro r hcc hr
    subst hcc
    subst hr
    simp [hasFence] at h
  rw [hasFence.eq_2 _ _ hc] at h
  exact ⟨h, hc⟩

theorem stripScan_of_no_fence (l : List Char) (h : hasFence l = false) :
    stripScan l = l := by
  induction l using stripScan.induct with
  | case1 rest ih => simp [hasFence] at h
  | case2 rest hx ih => simp [hasFence] at h
  | case3 rest ih =>
    have h3 := (hasFence_split _ _ h).1
    simp [hasFence] at h3
  | case4 rest hx1 hx2 ih => simp [hasFence] at h
  | case5 c rest hx1 hx2 hx3 hx4 ih =>
    obtain ⟨h1, h2⟩ := hasFence_split c rest h
    rw [stripScan.eq_5 _ _ hx1 hx2 hx3 hx4, ih h1]
  | case6 => rfl

theorem hexDigitChar_ne_backtick : ∀ n, n < 16 → hexDigitChar n ≠ '`' := by decide

theorem hasFence_cons_ne (d : Char) (hd : d ≠ '`') (y : List Char) :
    hasFence (d :: y) = hasFence y :=
  hasFence.eq_2 d y (fun _ h _ => absurd h hd)

theorem escapeChar_shape (c : Char) :
    (∃ ds, escapeChar c = '\\' :: ds ∧ ∀ ch ∈ ds, ch ≠ '`') ∨ escapeChar c = [c] := by
  rw [escapeChar]
  by_cases h1 : c = '"'
  · rw [if_pos h1]
    exact Or.inl ⟨['"'], rfl, by decide⟩
  rw [if_neg h1]
  by_cases h2 : c = '\\'
  · rw [if_pos h2]
    exact Or.inl ⟨['\\'], rfl, by decide⟩
  rw [if_neg h2]
  by_cases h3 : c = '\x08'
  · rw [if_pos h3]
    exact Or.inl ⟨['b'], rfl, by decide⟩
  rw [if_neg h3]
  by_cases h4 : c = '\x09'
  · rw [if_pos h4]
    exact Or.inl ⟨['t'], rfl, by decide⟩
  rw [if_neg h4]
  by_cases h5 : c = '\x0a'
  · rw [if_pos h5]
    exact Or.inl ⟨['n'], rfl, by decide⟩
  rw [if_neg h5]
  by_cases h6 : c = '\x0c'
  · rw [if_pos h6]
    exact Or.inl ⟨['f'], rfl, by decide⟩
  rw [if_neg h6]
  by_cases h7 : c = '\x0d'
  · rw [if_pos h7]
    exact Or.inl ⟨['r'], rfl, by decide⟩
  rw [if_neg h7]
  by_cases h8 : c.toNat < 32
  · rw [if_pos h8]
    refine Or.inl ⟨['u', '0', '0', hexDigitChar (c.toNat / 16), hexDigitChar (c.toNat % 16)],
      rfl, ?_⟩
    intro ch hm
    simp only [List.mem_cons, List.not_mem_nil, or_false] at hm
    rcases hm with h | h | h | h | h
    · rw [h]; decide
    · rw [h]; decide
    · rw [h]; decide
    · rw [h]; exact hexDigitChar_ne_backtick _ (by omega)
    · rw [h]; exact hexDigitChar_ne_backtick _ (by omega)
  · rw [if_neg h8]
    exact Or.inr rfl

theorem hasFence_append_clean (x y : List Char) (hx : ∀ ch ∈ x, ch ≠ '`') :
    hasFence (x ++ y) = hasFence y := by
  induction x with
  | nil => rfl
  | cons d x' ih =>
    have hd : d ≠ '`' := hx d (List.mem_cons_self d x')
    rw [List.cons_append, hasFence_cons_ne d hd]
    exact ih (fun ch hm => hx ch (List.mem_cons_of_mem d hm))

theorem hasFence_escapeChar_append (c : Char) (hb : c ≠ '`') (y : List Char) :
    hasFence (escapeChar c ++ y) = hasFence y := by
  rcases escapeChar_shape c with ⟨ds, hds, hmem⟩ | hc
  · rw [hds, List.cons_append, hasFence_cons_ne _ (by decide)]
    exact hasFence_append_clean ds y hmem
  · rw [hc, List.cons_append, List.nil_append, hasFence_cons_ne _ hb]

theorem escapeChar_append_bt_head (c : Char) (hb : c ≠ '`') (ys : List Char) :
    ∀ r, escapeChar c ++ ys = '`' :: r → False := by
  intro r heq
  rcases escapeChar_shape c with ⟨ds, hds, _⟩ | hc
  · rw [hds, List.cons_append] at heq
    simp only [List.cons.injEq] at heq
    exact absurd heq.1 (by decide)
  · rw [hc, List.cons_append, List.nil_append] at heq
    simp only [List.cons.injEq] at heq
    exact hb heq.1

theorem escapeList_backtick_head (xs ys : List Char) (r : List Char)
    (heq : escapeList xs ++ ys = '`' :: r) :
    (∃ t, xs = '`' :: t) ∨ (xs = [] ∧ ∃ t, ys = '`' :: t) := by
  rcases xs with _ | ⟨c, xs'⟩
  · right
    exact ⟨rfl, r, heq⟩
  · left
    by_cases hb : c = '`'
    · exact ⟨xs', by rw [hb]⟩
    · rw [escapeList, List.append_assoc] at heq
      exact absurd heq (fun h => escapeChar_append_bt_head c hb _ r h)
/-- A backtick is escaped as itself. -/
theorem escapeChar_backtick : escapeChar '`' = ['`'] := by decide

/-- A cons on a non-backtick head never begins with a backtick. -/
theorem cons_ne_backtick_head (d : Char) (hd : d ≠ '`') (X : List Char) :
    ∀ r, d :: X = '`' :: r → False := by
  intro r h
  injection h with h1 _
  exact hd h1

/-- Escaping a fence-free text and appending a fence-free continuation
that does not begin with a backtick yields a fence-free text. -/
theorem hasFence_escapeList_append (xs tail : List Char)
    (hxs : hasFence xs = false) (htail : hasFence tail = false)
    (hhead : ∀ r, tail = '`' :: r → False) :
    hasFence (escapeList xs ++ tail) = false := by
  induction xs with
  | nil => exact htail
  | cons c xs' ih =>
    obtain ⟨h1, hc⟩ := hasFence_split c xs' hxs
    by_cases hb : c = '`'
    · subst hb
      rw [escapeList, escapeChar_backtick, List.cons_append, List.nil_append,
        List.cons_append]
      have cnd : ∀ r, ('`' : Char) = '`' → escapeList xs' ++ tail = '`' :: '`' :: r → False := by
        intro r _ hr
        rcases escapeList_backtick_head xs' tail ('`' :: r) hr with ⟨t, ht⟩ | ⟨_, t, hyt⟩
        · subst ht
          rw [escapeList, escapeChar_backtick, List.cons_append, List.nil_append,
            List.cons_append] at hr
          simp only [List.cons.injEq, true_and] at hr
          rcases escapeList_backtick_head t tail r hr with ⟨t2, ht2⟩ | ⟨_, t2, hyt2⟩
          · exact hc t2 rfl (by rw [ht2])
          · exact hhead t2 hyt2
        · exact hhead t hyt
      rw [hasFence.eq_2 _ _ cnd]
      exact ih h1
    · rw [escapeList, List.append_assoc, hasFence_escapeChar_append c hb]
      exact ih h1

/-- A quoted string built from a fence-free text, followed by a
fence-free continuation not beginning with a backtick, is fence-free. -/
theorem hasFence_quoteString_append (s : String) (tail : List Char)
    (hs : hasFence s.data = false) (htail : hasFence tail = false)
    (hhead : ∀ r, tail = '`' :: r → False) :
    hasFence (quoteString s ++ tail) = false := by
  unfold quoteString
  rw [List.cons_append, List.append_assoc, List.cons_append, List.nil_append]
  rw [hasFence_cons_ne _ (by decide)]
  refine hasFence_escapeList_append s.data ('"' :: tail) hs ?_ ?_
  · rw [hasFence_cons_ne _ (by decide)]
    exact htail
  · exact cons_ne_backtick_head '"' (by decide) tail

/-- The serialized members of a flat string-valued object, followed by
a fence-free continuation not beginning with a backtick, are
fence-free. -/
theorem hasFence_serializeFields_strs : ∀ (O : List (String × String)) (tail : List Char),
    (∀ kv ∈ O, hasFence kv.1.data = false ∧ hasFence kv.2.data = false) →
    hasFence tail = false →
    (∀ r, tail = '`' :: r → False) →
    hasFence (serializeFields (O.map fun kv => (kv.1, Js.str kv.2)) ++ tail) = false := by
  intro O
  induction O with
  | nil =>
    intro tail _ htail _
    simpa using htail
  | cons kv O' ih =>
    intro tail hO htail hhead
    obtain ⟨hk, hv⟩ := hO kv (List.mem_cons_self kv O')
    have hO' : ∀ kv ∈ O', hasFence kv.1.data = false ∧ hasFence kv.2.data = false :=
      fun kv2 hm => hO kv2 (List.mem_cons_of_mem kv hm)
    rcases O' with _ | ⟨kv2, O''⟩
    · show hasFence
        ((quoteString kv.1 ++ ':' :: serializeJs (Js.str kv.2)) ++ tail) = false
      rw [show serializeJs (Js.str kv.2) = quoteString kv.2 from by rw [serializeJs]]
      rw [List.append_assoc, List.cons_append]
      refine hasFence_quoteString_append kv.1 _ hk ?_ ?_
      · rw [hasFence_cons_ne _ (by decide)]
        exact hasFence_quoteString_append kv.2 tail hv htail hhead
      · exact cons_ne_backtick_head ':' (by decide) _
    · show hasFence
        (((quoteString kv.1 ++ ':' :: serializeJs (Js.str kv.2)) ++
          ',' :: serializeFields ((kv2 :: O'').map fun kv => (kv.1, Js.str kv.2))) ++ tail)
        = false
      rw [show serializeJs (Js.str kv.2) = quoteString kv.2 from by rw [serializeJs]]
      rw [List.append_assoc, List.append_assoc, List.cons_append, List.cons_append]
      refine hasFence_quoteString_append kv.1 _ hk ?_ ?_
      · rw [hasFence_cons_ne _ (by decide)]
        refine hasFence_quoteString_append kv.2 _ hv ?_ ?_
        · rw [hasFence_cons_ne _ (by decide)]
          exact ih tail hO' htail hhead
        · exact cons_ne_backtick_head ',' (by decide) _
      · exact cons_ne_backtick_head ':' (by decide) _

/-- The JSON serialization of a flat string-valued object with
fence-free keys and values is fence-free. -/
theorem hasFence_serialize_flat_obj (O : List (String × String))
    (hO : ∀ kv ∈ O, hasFence kv.1.data = false ∧ hasFence kv.2.data = false) :
    hasFence (serializeJs (Js.obj (O.map fun kv => (kv.1, Js.str kv.2)))) = false := by
  rw [serializeJs]
  rw [hasFence_cons_ne _ (by decide)]
  exact hasFence_serializeFields_strs O ['\x7d'] hO (by decide)
    (cons_ne_backtick_head '\x7d' (by decide) [])

/-! Parser round-trip lemmas for claim C2. -/

/-- Rebuilding a string from its characters is the identity. -/
theorem string_mk_data (s : String) : String.mk s.data = s := rfl

/-- Left-trim keeps a text beginning with a non-whitespace character. -/
theorem trimLeftWs_nonws (c : Char) (x : List Char) (h : isJsTrimWs c = false) :
    trimLeftWs (c :: x) = c :: x := by
  simp [trimLeftWs, h]

/-- Trimming a brace-delimited text changes nothing. -/
theorem jsTrim_brace_wrapped (x : List Char) :
    jsTrim ('\x7b' :: (x ++ ['\x7d'])) = '\x7b' :: (x ++ ['\x7d']) := by
  unfold jsTrim
  rw [trimLeftWs_nonws _ _ (by decide)]
  rw [show ('\x7b' :: (x ++ ['\x7d'])).reverse = '\x7d' :: (x.reverse ++ ['\x7b']) from by
    simp]
  rw [trimLeftWs_nonws _ _ (by decide)]
  rw [show ('\x7d' :: (x.reverse ++ ['\x7b'])).reverse = '\x7b' :: (x ++ ['\x7d']) from by
    simp]

/-- Whitespace skipping keeps a text beginning with a non-whitespace
character. -/
theorem skipWs_nonws (c : Char) (t : List Char) (h : isJsonWs c = false) :
    skipWs (c :: t) = c :: t := by
  simp [skipWs, h]

/-- The hexadecimal digit emitted for a value below 16 is a hex digit
and decodes back to the value. -/
theorem hexDigitChar_props : ∀ n, n < 16 →
    isHexDigit (hexDigitChar n) = true ∧ hexVal (hexDigitChar n) = n := by decide

/-- Rebuilding a character below the control range from its code point
is the identity. -/
theorem char_ofNat_toNat (c : Char) (h : c.toNat < 32) : Char.ofNat c.toNat = c := by
  have hv : c.toNat.isValidChar := Or.inl (by omega)
  rw [Char.ofNat, dif_pos hv]
  apply Char.ext
  simp [Char.ofNatAux, Char.toNat, UInt32.ofNat']
  apply UInt32.ext
  simp [UInt32.toNat, BitVec.ofNatLt]

/-- Parsing the escape of one character prepends that character. -/
theorem parseStringBody_escapeChar (c : Char) (rest : List Char) :
    parseStringBody (escapeChar c ++ rest) =
      (parseStringBody rest).map (fun p => (c :: p.1, p.2)) := by
  rw [escapeChar]
  by_cases h1 : c = '"'
  · rw [if_pos h1, h1]; rfl
  rw [if_neg h1]
  by_cases h2 : c = '\\'
  · rw [if_pos h2, h2]; rfl
  rw [if_neg h2]
  by_cases h3 : c = '\x08'
  · rw [if_pos h3, h3]; rfl
  rw [if_neg h3]
  by_cases h4 : c = '\x09'
  · rw [if_pos h4, h4]; rfl
  rw [if_neg h4]
  by_cases h5 : c = '\x0a'
  · rw [if_pos h5, h5]; rfl
  rw [if_neg h5]
  by_cases h6 : c = '\x0c'
  · rw [if_pos h6, h6]; rfl
  rw [if_neg h6]
  by_cases h7 : c = '\x0d'
  · rw [if_pos h7, h7]; rfl
  rw [if_neg h7]
  by_cases h8 : c.toNat < 32
  · rw [if_pos h8]
    have hd1 : c.toNat / 16 < 16 := by omega
    have hd2 : c.toNat % 16 < 16 := Nat.mod_lt _ (by omega)
    show parseStringBody
        ('\\' :: 'u' :: '0' :: '0' :: hexDigitChar (c.toNat / 16) ::
          hexDigitChar (c.toNat % 16) :: rest) = _
    rw [parseStringBody.eq_11]
    rw [if_pos (by
      rw [(hexDigitChar_props _ hd1).1, (hexDigitChar_props _ hd2).1]
      decide)]
    have harith :
        ((hexVal '0' * 16 + hexVal '0') * 16 + hexVal (hexDigitChar (c.toNat / 16))) * 16 +
          hexVal (hexDigitChar (c.toNat % 16)) = c.toNat := by
      rw [(hexDigitChar_props _ hd1).2, (hexDigitChar_props _ hd2).2,
        show hexVal '0' = 0 from by decide]
      omega
    rw [harith, char_ofNat_toNat c h8]
  · rw [if_neg h8]
    show parseStringBody (c :: rest) = _
    rw [parseStringBody.eq_13 c rest (fun h => h1 h) (fun h => h2 h),
      if_neg (fun h => h8 h)]

/-- Parsing the escaped form of a text followed by a closing quote
recovers the text. -/
theorem parseStringBody_quote (l : List Char) (rest : List Char) :
    parseStringBody (escapeList l ++ ('"' :: rest)) = some (l, rest) := by
  induction l with
  | nil => rfl
  | cons c l' ih =>
    rw [escapeList, List.append_assoc, parseStringBody_escapeChar, ih]
    rfl

/-- Parsing a serialized string value recovers it, at any nonzero
fuel. -/
theorem parseValue_quoteString (M : Nat) (v : String) (rest : List Char) :
    parseValue (M + 1) (quoteString v ++ rest) = some (Js.str v, rest) := by
  have hsh : quoteString v ++ rest = '"' :: (escapeList v.data ++ ('"' :: rest)) := by
    simp [quoteString]
  rw [hsh]
  simp [parseValue, skipWs_nonws, isJsonWs, parseStringBody_quote, string_mk_data]

/-- Serialized members are at least as long as the member list. -/
theorem length_serializeFields_ge : ∀ fs : List (String × Js),
    fs.length ≤ (serializeFields fs).length := by
  intro fs
  induction fs with
  | nil => simp [serializeFields]
  | cons kv fs' ih =>
    rcases fs' with _ | ⟨kv2, fs''⟩
    · obtain ⟨k, v⟩ := kv
      rw [serializeFields]
      simp [quoteString]
    · obtain ⟨k, v⟩ := kv
      rw [serializeFields]
      · have hq : 1 ≤ (quoteString k).length := by simp [quoteString]
        simp only [List.length_append, List.length_cons] at ih ⊢
        omega
      · simp

/-- Updating an absent key appends the pair. -/
theorem updateField_append (k : String) (v : Js) (acc : List (String × Js))
    (hk : k ∉ acc.map Prod.fst) :
    updateField k v acc = acc ++ [(k, v)] := by
  induction acc with
  | nil => rfl
  | cons kv acc' ih =>
    have hne : kv.1 ≠ k := by
      intro h
      exact hk (by simp [h])
    obtain ⟨k2, v2⟩ := kv
    rw [updateField, if_neg hne, ih (fun h => hk (by simp; right; exact (by simpa using h)))]
    rfl

/-- Folding updates over pairwise-fresh keys appends them in order. -/
theorem dedupFields_aux : ∀ (fs acc : List (String × Js)),
    (fs.map Prod.fst).Nodup →
    (∀ k ∈ fs.map Prod.fst, k ∉ acc.map Prod.fst) →
    fs.foldl (fun acc kv => updateField kv.1 kv.2 acc) acc = acc ++ fs := by
  intro fs
  induction fs with
  | nil =>
    intro acc _ _
    simp
  | cons kv fs' ih =>
    intro acc hnodup hfresh
    obtain ⟨k, v⟩ := kv
    rw [List.map_cons] at hnodup
    have hpair := List.nodup_cons.mp hnodup
    have hnd : (fs'.map Prod.fst).Nodup := hpair.2
    have hknot : k ∉ fs'.map Prod.fst := hpair.1
    have hfresh2 : ∀ k2 ∈ fs'.map Prod.fst, k2 ∉ (acc ++ [(k, v)]).map Prod.fst := by
      intro k2 hk2
      simp only [List.map_append, List.mem_append]
      rintro (h | h)
      · exact hfresh k2 (by simp [hk2]) h
      · have hk2k : k2 = k := by simpa using h
        exact hknot (hk2k ▸ hk2)
    rw [List.foldl_cons]
    rw [show updateField (k, v).1 (k, v).2 acc = acc ++ [(k, v)] from
      updateField_append k v acc (hfresh k (by simp))]
    rw [ih (acc ++ [(k, v)]) hnd hfresh2]
    simp
  
/-- `JSON.parse`'s duplicate-key resolution is the identity on objects
whose keys are already distinct. -/
theorem dedupFields_of_nodup (fs : List (String × Js))
    (h : (fs.map Prod.fst).Nodup) : dedupFields fs = fs := by
  unfold dedupFields
  simpa using dedupFields_aux fs [] h (by simp)

/-- The serialization of a nonempty object begins with a quote. -/
theorem serializeFields_cons_head (k : String) (v : Js) (fs : List (String × Js)) :
    ∃ Z, serializeFields ((k, v) :: fs) = '"' :: Z := by
  rcases fs with _ | ⟨f2, fs'⟩
  · refine ⟨escapeList k.data ++ ('"' :: (':' :: serializeJs v)), ?_⟩
    rw [serializeFields]
    simp [quoteString]
  · refine ⟨escapeList k.data ++ ('"' :: (':' :: (serializeJs v ++ ',' ::
      serializeFields (f2 :: fs')))), ?_⟩
    rw [serializeFields]
    · simp [quoteString]
    · simp

/-- Parsing the serialized members of a nonempty flat string-valued
object up to the closing brace recovers the members, whenever the
member-count fuel suffices and the value parser round-trips quoted
strings. -/
theorem parseFieldsF_strs (pv : List Char → Option (Js × List Char))
    (hpv : ∀ (v : String) (rest : List Char), pv (quoteString v ++ rest) = some (Js.str v, rest)) :
    ∀ (O : List (String × String)) (g : Nat) (rest : List Char),
      O ≠ [] → O.length ≤ g + 1 →
      parseFieldsF pv (g + 1)
        (serializeFields (O.map fun kv => (kv.1, Js.str kv.2)) ++ ('\x7d' :: rest)) =
        some (O.map fun kv => (kv.1, Js.str kv.2), rest) := by
  intro O
  induction O with
  | nil =>
    intro g rest hne _
    exact absurd rfl hne
  | cons kv O' ih =>
    intro g rest _ hlen
    obtain ⟨k, v⟩ := kv
    rcases O' with _ | ⟨kv2, O''⟩
    · have hsh : serializeFields (([⟨k, v⟩] : List (String × String)).map
            fun kv => (kv.1, Js.str kv.2)) ++ ('\x7d' :: rest) =
          '"' :: (escapeList k.data ++ ('"' :: (':' :: (quoteString v ++ ('\x7d' :: rest))))) := by
        simp only [List.map_cons, List.map_nil]
        rw [serializeFields]
        rw [show serializeJs (Js.str v) = quoteString v from by rw [serializeJs]]
        conv_lhs => rw [quoteString]
        simp [List.append_assoc]
      rw [hsh, parseFieldsF]
      simp [skipWs_nonws, isJsonWs, parseStringBody_quote, hpv, string_mk_data]
    · obtain ⟨g', rfl⟩ : ∃ g', g = g' + 1 := ⟨g - 1, by simp at hlen; omega⟩
      have hrec := ih g' rest (by simp) (by simp at hlen ⊢; omega)
      simp only [List.map_cons] at hrec
      have hsh : serializeFields ((⟨k, v⟩ :: kv2 :: O'' : List (String × String)).map
            fun kv => (kv.1, Js.str kv.2)) ++ ('\x7d' :: rest) =
          '"' :: (escapeList k.data ++ ('"' :: (':' :: (quoteString v ++ (',' ::
            (serializeFields ((kv2 :: O'').map fun kv => (kv.1, Js.str kv.2)) ++
              ('\x7d' :: rest))))))) := by
        simp only [List.map_cons]
        rw [serializeFields]
        · rw [show serializeJs (Js.str v) = quoteString v from by rw [serializeJs]]
          conv_lhs => rw [quoteString]
          simp [List.append_assoc]
        · simp
      rw [hsh, parseFieldsF]
      simp [skipWs_nonws, isJsonWs, parseStringBody_quote, hpv, string_mk_data, hrec]

/-- Parsing the serialization of a flat string-valued object with
distinct keys recovers the object, at any fuel of at least two. -/
theorem parseValue_serializeObj (M : Nat) (hM : 1 ≤ M) (O : List (String × String))
    (hnodup : (O.map Prod.fst).Nodup) (rest : List Char) :
    parseValue (M + 1) (serializeJs (Js.obj (O.map fun kv => (kv.1, Js.str kv.2))) ++ rest) =
      some (Js.obj (O.map fun kv => (kv.1, Js.str kv.2)), rest) := by
  rcases O with _ | ⟨⟨k, v⟩, O'⟩
  · show parseValue (M + 1) (serializeJs (Js.obj []) ++ rest) = some (Js.obj [], rest)
    rw [show serializeJs (Js.obj []) = ['\x7b', '\x7d'] from by rw [serializeJs]; rfl]
    rw [show (['\x7b', '\x7d'] : List Char) ++ rest = '\x7b' :: '\x7d' :: rest from rfl]
    simp [parseValue, skipWs_nonws, isJsonWs]
  · obtain ⟨M', rfl⟩ : ∃ M', M = M' + 1 := ⟨M - 1, by omega⟩
    simp only [List.map_cons]
    obtain ⟨Z, hZ⟩ := serializeFields_cons_head k (Js.str v)
      (O'.map fun kv => (kv.1, Js.str kv.2))
    have hs : serializeJs (Js.obj ((k, Js.str v) :: O'.map fun kv => (kv.1, Js.str kv.2)))
        ++ rest = '\x7b' :: '"' :: (Z ++ ('\x7d' :: rest)) := by
      rw [serializeJs, hZ]
      simp
    have hback : ('"' : Char) :: (Z ++ ('\x7d' :: rest)) =
        serializeFields ((k, Js.str v) :: O'.map fun kv => (kv.1, Js.str kv.2)) ++
          ('\x7d' :: rest) := by
      rw [hZ]
      rfl
    have hlen1 := length_serializeFields_ge ((k, Js.str v) :: O'.map fun kv => (kv.1, Js.str kv.2))
    rw [hZ] at hlen1
    simp only [List.length_cons, List.length_map] at hlen1
    have hbound : ((⟨k, v⟩ :: O' : List (String × String))).length ≤
        (('"' : Char) :: (Z ++ ('\x7d' :: rest))).length + 1 := by
      simp only [List.length_cons, List.length_append]
      omega
    have hfields := parseFieldsF_strs (parseValue (M' + 1)) (parseValue_quoteString M')
      (⟨k, v⟩ :: O') (('"' : Char) :: (Z ++ ('\x7d' :: rest))).length rest (by simp) hbound
    simp only [List.map_cons] at hfields
    rw [← hback] at hfields
    have hnod2 : (((k, Js.str v) :: O'.map fun kv => (kv.1, Js.str kv.2)).map Prod.fst).Nodup := by
      simpa [List.map_map, Function.comp_def] using hnodup
    rw [hs, parseValue]
    rw [skipWs_nonws '\x7b' _ (by decide)]
    simp only [List.length_cons, List.length_append] at hfields
    simp [skipWs_nonws, isJsonWs]
    exact ⟨_, hfields, dedupFields_of_nodup _ hnod2⟩

/-- `JSON.parse` on the serialization of a flat string-valued object
with distinct keys recovers the object. -/
theorem jsonParseChars_serialize_flat (O : List (String × String))
    (hnodup : (O.map Prod.fst).Nodup) :
    jsonParseChars (serializeJs (Js.obj (O.map fun kv => (kv.1, Js.str kv.2)))) =
      some (Js.obj (O.map fun kv => (kv.1, Js.str kv.2))) := by
  set ser := serializeJs (Js.obj (O.map fun kv => (kv.1, Js.str kv.2))) with hser
  have hlen : 1 ≤ ser.length := by
    rw [hser, serializeJs]
    simp
  have hpv := parseValue_serializeObj ser.length hlen O hnodup []
  rw [List.append_nil] at hpv
  rw [← hser] at hpv
  unfold jsonParseChars
  rw [hpv]
  rfl

/-- Looking a key up in the parsed form of a flat string object and
coercing is looking it up in the object. -/
theorem lookupJs_map_str (k : String) (O : List (String × String)) :
    (lookupJs k (O.map fun kv => (kv.1, Js.str kv.2))).map coerceValue = lookupStr k O := by
  induction O with
  | nil => rfl
  | cons kv O' ih =>
    by_cases h : kv.1 = k
    · simp [lookupJs, lookupStr, h, coerceValue]
    · simp only [List.map_cons, lookupJs, lookupStr, h, if_false]
      exact ih

/-- Counterexample to C2 as stated: the object mapping `Name` to the
three-character string of three backticks serializes to a text from
which the global fence-stripping regex deletes the backticks, so the
normalizer returns the empty string for `Name` instead of the object's
value. -/
theorem claim2_counterexample :
    normalizeResponse ["Name"] (serializeFlat [("Name", "```")]) =
      some [("Name", some "")] ∧
    ("" : String) ≠ "```" := by
  constructor
  · decide
  · decide

/-- Claim C2 as amended: for every schema and every flat string-valued
object with distinct keys, all of them schema fields, whose keys and
values contain no run of three backticks (such a run would be deleted
by the fence-stripping regex), normalizing the object's JSON
serialization succeeds and maps each schema field present in the
object to its string value and each absent schema field to null. -/
theorem claim2_flat_roundtrip (S : List String) (O : List (String × String))
    (hnodup : (O.map Prod.fst).Nodup)
    (hsub : ∀ k ∈ O.map Prod.fst, k ∈ S)
    (hfence : ∀ kv ∈ O, hasFence kv.1.data = false ∧ hasFence kv.2.data = false) :
    normalizeResponse S (serializeFlat O) = some (S.map fun k => (k, lookupStr k O)) := by
  have hdata : (serializeFlat O).data =
      serializeJs (Js.obj (O.map fun kv => (kv.1, Js.str kv.2))) := rfl
  have hclean : cleanText (serializeFlat O) =
      serializeJs (Js.obj (O.map fun kv => (kv.1, Js.str kv.2))) := by
    unfold cleanText
    rw [hdata, stripScan_of_no_fence _ (hasFence_serialize_flat_obj O hfence)]
    rw [serializeJs]
    exact jsTrim_brace_wrapped _
  have hparse : jsonParseChars (cleanText (serializeFlat O)) =
      some (Js.obj (O.map fun kv => (kv.1, Js.str kv.2))) := by
    rw [hclean]
    exact jsonParseChars_serialize_flat O hnodup
  rw [normalizeResponse_eq_of_parse S _ _ hparse]
  simp only [lookupJs_map_str]

/-- Witness for the amended C2 at a concrete object and schema. -/
theorem claim2_witness :
    ((["Name", "Age"] : List String).map fun k => (k, lookupStr k [("Name", "Ali")])) =
      [("Name", some "Ali"), ("Age", none)] ∧
    normalizeResponse ["Name", "Age"] (serializeFlat [("Name", "Ali")]) =
      some [("Name", some "Ali"), ("Age", none)] :=
  ⟨by decide,
   (claim2_flat_roundtrip ["Name", "Age"] [("Name", "Ali")] (by decide) (by decide)
      (by decide)).trans (by decide)⟩
